import Mathlib

/-!
Verification of the tree subsystem of the pdcip data-structures library
(C sources under `src/c`, C++ sources under `src/cpp`).

Modelling conventions.

* `double` payloads: the only floating-point operations the tree code
  performs on node values are `isnan`, `==` and `<`.  On finite doubles,
  `==` and `<` agree with the exact rational order of the represented
  values, and every comparison involving NaN is false.  We therefore
  model a double as `Option ℚ`, with `none` standing for NaN (the
  sentinel "unset" value) and `some q` for a finite double of exact
  value `q`.  `visnan`, `veq`, `vlt` embed `isnan`, `==`, `<` with the
  IEEE-754 rules for the NaN cases.

* Pointers: a `binary_tree *` (resp. `gen_tree *` / `shared_ptr`) is
  either NULL or points to a node, so the embedded tree types have a
  `nil` constructor for the NULL pointer and a `node` constructor for an
  actual node.  In the C++ `tree` class the children vector pointer is
  never NULL for a constructor-built node (the constructor asserts
  this), so the NULL-children-vector guards in `tree::dfs` and
  `binary_tree::sorted_values` correspond to unconstructible states and
  the children pointer is embedded as a plain list.

* Mutation: `binary_tree::insert` mutates the receiver and returns a
  pointer to the node where the value ended up; it is embedded as a
  function returning the pair (updated subtree, returned node).

* `free`: the release functions only manipulate the heap, so they are
  embedded by the list of nodes they free, in call order.
-/

/-- A double value: `none` is NaN, `some q` a finite double of value `q`. -/
abbrev Val := Option ℚ

/-- Embeds `isnan` on doubles. -/
def visnan : Val → Bool
  | none => true
  | some _ => false

/-- Embeds `<` on doubles: any comparison involving NaN is false. -/
def vlt : Val → Val → Bool
  | some a, some b => decide (a < b)
  | _, _ => false

/-- Embeds `==` on doubles: any comparison involving NaN is false. -/
def veq : Val → Val → Bool
  | some a, some b => decide (a = b)
  | _, _ => false

/-- A `binary_tree *`: `nil` is NULL, `node` a node with its two child
pointers (`struct binary_tree_` in src/c/include/pdcip/tree.h; the C++
`binary_tree` class stores the same two slots as a 2-element children
vector whose entries may be null). -/
inductive binary_tree where
  | nil
  | node (value : Val) (left right : binary_tree)
deriving DecidableEq

/-- The `value` field / `tree::value()` getter (meaningless on NULL,
which no caller dereferences). -/
def binary_tree.value : binary_tree → Val
  | .nil => none
  | .node v _ _ => v

/-- The `left` slot (`binary_tree::left()` / `tree->left`). -/
def binary_tree.left : binary_tree → binary_tree
  | .nil => .nil
  | .node _ l _ => l

/-- The `right` slot (`binary_tree::right()` / `tree->right`). -/
def binary_tree.right : binary_tree → binary_tree
  | .nil => .nil
  | .node _ _ r => r

/-- Number of nodes of a binary tree (termination measure only). -/
def binary_tree.bsize : binary_tree → Nat
  | .nil => 0
  | .node _ l r => 1 + l.bsize + r.bsize

/-- Termination measure for `insert`: the recursion either descends into
a strictly smaller child or into a freshly created sentinel-valued leaf,
which the measure's sentinel discount makes smaller as well. -/
def bmeasure (t : binary_tree) : Nat :=
  t.bsize + (if visnan t.value then 0 else 1)

lemma bmeasure_child_left (w : Val) (lt r : binary_tree)
    (h1 : ¬ visnan w = true) :
    bmeasure lt < bmeasure (.node w lt r) := by
  have h2 : visnan w = false := by simpa using h1
  simp [bmeasure, binary_tree.bsize, binary_tree.value, h2]
  split <;> omega

lemma bmeasure_child_right (w : Val) (l rt : binary_tree)
    (h1 : ¬ visnan w = true) :
    bmeasure rt < bmeasure (.node w l rt) := by
  have h2 : visnan w = false := by simpa using h1
  simp [bmeasure, binary_tree.bsize, binary_tree.value, h2]
  split <;> omega

lemma bmeasure_empty_lt (w : Val) (l r : binary_tree)
    (h1 : ¬ visnan w = true) :
    bmeasure (.node none .nil .nil) < bmeasure (.node w l r) := by
  have h2 : visnan w = false := by simpa using h1
  simp [bmeasure, binary_tree.bsize, binary_tree.value, h2,
    show visnan none = true from rfl]

/-- `binary_tree::insert` (src/cpp/src/tree.cc:284-303), embedded as
(updated subtree, returned node).  If the node's value is NaN it adopts
the value and returns itself; if the value equals the node's value
nothing changes and the node is returned; if it is smaller, a NaN-valued
empty node is first installed on the left when that slot is NULL and
insertion recurses left (`set_left(make_shared<binary_tree>())`);
otherwise symmetrically right.  The C++ method performs no NaN check on
`value`.  Calling the method through a NULL pointer is undefined in the
source; the `nil` case below is a junk value no theorem relies on. -/
def binary_tree.insert (t : binary_tree) (v : Val) :
    binary_tree × binary_tree :=
  match t with
  | .nil => (.nil, .nil)
  | .node w l r =>
    if h1 : visnan w then
      (.node v l r, .node v l r)
    else if veq v w then
      (.node w l r, .node w l r)
    else if vlt v w then
      match l with
      | .nil =>
        let p := insert (.node none .nil .nil) v
        (.node w p.1 r, p.2)
      | .node lw ll lr =>
        let p := insert (.node lw ll lr) v
        (.node w p.1 r, p.2)
    else
      match r with
      | .nil =>
        let p := insert (.node none .nil .nil) v
        (.node w l p.1, p.2)
      | .node rw rl rr =>
        let p := insert (.node rw rl rr) v
        (.node w l p.1, p.2)
termination_by bmeasure t
decreasing_by
  · exact bmeasure_empty_lt _ _ _ h1
  · exact bmeasure_child_left _ _ _ h1
  · exact bmeasure_empty_lt _ _ _ h1
  · exact bmeasure_child_right _ _ _ h1

/-- `binary_tree_insert` (src/c/src/tree.c:277-298): identical recursion
to the C++ method, but guarded by `assert(tree && !isnan(value))`; a
failed assertion is embedded as `none`. -/
def binary_tree_insert (t : binary_tree) (v : Val) :
    Option (binary_tree × binary_tree) :=
  match t with
  | .nil => none
  | .node w l r =>
    if visnan v then none
    else if h1 : visnan w then
      some (.node v l r, .node v l r)
    else if veq v w then
      some (.node w l r, .node w l r)
    else if vlt v w then
      match l with
      | .nil =>
        (binary_tree_insert (.node none .nil .nil) v).map
          (fun p => (.node w p.1 r, p.2))
      | .node lw ll lr =>
        (binary_tree_insert (.node lw ll lr) v).map
          (fun p => (.node w p.1 r, p.2))
    else
      match r with
      | .nil =>
        (binary_tree_insert (.node none .nil .nil) v).map
          (fun p => (.node w l p.1, p.2))
      | .node rw rl rr =>
        (binary_tree_insert (.node rw rl rr) v).map
          (fun p => (.node w l p.1, p.2))
termination_by bmeasure t
decreasing_by
  · exact bmeasure_empty_lt _ _ _ h1
  · exact bmeasure_child_left _ _ _ h1
  · exact bmeasure_empty_lt _ _ _ h1
  · exact bmeasure_child_right _ _ _ h1

/-- The value pushed for one node by `sorted_values`: nothing for the
NaN sentinel, the value itself otherwise. -/
def vallist : Val → List ℚ
  | none => []
  | some q => [q]

/-- `binary_tree::sorted_values` (src/cpp/src/tree.cc:308-326): left
subtree's sorted values (empty when the left slot is NULL), then this
node's value unless it is NaN, then the right subtree's sorted values.
The NULL-children-vector guard of the source is dropped: a
constructor-built `binary_tree` always has the 2-slot vector.  Method
calls need a non-NULL receiver, so the `nil` case just mirrors the empty
result the source produces for a NULL child slot. -/
def binary_tree.sorted_values : binary_tree → List ℚ
  | .nil => []
  | .node v l r => sorted_values l ++ vallist v ++ sorted_values r

/-- `binary_tree_sorted_values` (src/c/src/tree.c:310-341): when the
node's value is NaN it returns NULL with a zero count (embedded as the
empty list) without looking at the children; otherwise left values, the
value, right values.  The `nil` case mirrors the empty result taken for
a NULL child pointer (the function itself is never called on NULL: its
assertion would fail). -/
def binary_tree_sorted_values : binary_tree → List ℚ
  | .nil => []
  | .node none _ _ => []
  | .node (some q) l r =>
    binary_tree_sorted_values l ++ [q] ++ binary_tree_sorted_values r

/-- The node a first insertion creates. -/
def leaf (q : ℚ) : binary_tree := .node (some q) .nil .nil

lemma insert_nil_eq (v : Val) : binary_tree.insert .nil v = (.nil, .nil) := by
  rw [binary_tree.insert.eq_def]

lemma insert_nan (v : Val) (l r : binary_tree) :
    (binary_tree.node none l r).insert v = (.node v l r, .node v l r) := by
  rw [binary_tree.insert.eq_def]
  simp [visnan]

lemma insert_found (q : ℚ) (l r : binary_tree) :
    (binary_tree.node (some q) l r).insert (some q)
      = (.node (some q) l r, .node (some q) l r) := by
  rw [binary_tree.insert.eq_def]
  simp [visnan, veq]

lemma insert_lt_nil (q w : ℚ) (r : binary_tree) (h : q < w) :
    (binary_tree.node (some w) .nil r).insert (some q)
      = (.node (some w) (leaf q) r, leaf q) := by
  rw [binary_tree.insert.eq_def]
  simp [visnan, veq, vlt, h, ne_of_lt h, insert_nan, leaf]

lemma insert_lt_cons (q w : ℚ) (l r : binary_tree) (h : q < w)
    (hl : l ≠ .nil) :
    (binary_tree.node (some w) l r).insert (some q)
      = (.node (some w) (l.insert (some q)).1 r, (l.insert (some q)).2) := by
  cases l with
  | nil => exact absurd rfl hl
  | node lw ll lr =>
    rw [binary_tree.insert.eq_def]
    simp [visnan, veq, vlt, h, ne_of_lt h]

lemma insert_gt_nil (q w : ℚ) (l : binary_tree) (h : w < q) :
    (binary_tree.node (some w) l .nil).insert (some q)
      = (.node (some w) l (leaf q), leaf q) := by
  rw [binary_tree.insert.eq_def]
  simp [visnan, veq, vlt, not_lt_of_lt h, (ne_of_lt h).symm, insert_nan, leaf]

lemma insert_gt_cons (q w : ℚ) (l r : binary_tree) (h : w < q)
    (hr : r ≠ .nil) :
    (binary_tree.node (some w) l r).insert (some q)
      = (.node (some w) l (r.insert (some q)).1, (r.insert (some q)).2) := by
  cases r with
  | nil => exact absurd rfl hr
  | node rw2 rl rr =>
    rw [binary_tree.insert.eq_def]
    simp [visnan, veq, vlt, not_lt_of_lt h, (ne_of_lt h).symm]

lemma c_insert_nil (v : Val) : binary_tree_insert .nil v = none := by
  rw [binary_tree_insert.eq_def]

lemma c_insert_nanval (w : Val) (l r : binary_tree) :
    binary_tree_insert (.node w l r) none = none := by
  rw [binary_tree_insert.eq_def]
  simp [visnan]

lemma c_insert_nan (q : ℚ) (l r : binary_tree) :
    binary_tree_insert (.node none l r) (some q)
      = some (.node (some q) l r, .node (some q) l r) := by
  rw [binary_tree_insert.eq_def]
  simp [visnan]

lemma c_insert_found (q : ℚ) (l r : binary_tree) :
    binary_tree_insert (.node (some q) l r) (some q)
      = some (.node (some q) l r, .node (some q) l r) := by
  rw [binary_tree_insert.eq_def]
  simp [visnan, veq]

lemma c_insert_lt_nil (q w : ℚ) (r : binary_tree) (h : q < w) :
    binary_tree_insert (.node (some w) .nil r) (some q)
      = some (.node (some w) (leaf q) r, leaf q) := by
  rw [binary_tree_insert.eq_def]
  simp [visnan, veq, vlt, h, ne_of_lt h, c_insert_nan, leaf]

lemma c_insert_lt_cons (q w : ℚ) (l r : binary_tree) (h : q < w)
    (hl : l ≠ .nil) :
    binary_tree_insert (.node (some w) l r) (some q)
      = (binary_tree_insert l (some q)).map
          (fun p => (.node (some w) p.1 r, p.2)) := by
  cases l with
  | nil => exact absurd rfl hl
  | node lw ll lr =>
    rw [binary_tree_insert.eq_def]
    simp [visnan, veq, vlt, h, ne_of_lt h]

lemma c_insert_gt_nil (q w : ℚ) (l : binary_tree) (h : w < q) :
    binary_tree_insert (.node (some w) l .nil) (some q)
      = some (.node (some w) l (leaf q), leaf q) := by
  rw [binary_tree_insert.eq_def]
  simp [visnan, veq, vlt, not_lt_of_lt h, (ne_of_lt h).symm, c_insert_nan,
    leaf]

lemma c_insert_gt_cons (q w : ℚ) (l r : binary_tree) (h : w < q)
    (hr : r ≠ .nil) :
    binary_tree_insert (.node (some w) l r) (some q)
      = (binary_tree_insert r (some q)).map
          (fun p => (.node (some w) l p.1, p.2)) := by
  cases r with
  | nil => exact absurd rfl hr
  | node rw2 rl rr =>
    rw [binary_tree_insert.eq_def]
    simp [visnan, veq, vlt, not_lt_of_lt h, (ne_of_lt h).symm]

/-- The BST shape invariant maintained by `insert` on any tree that grew
out of a first insertion: every node holds a non-NaN value, everything
in the left subtree is smaller, everything in the right subtree larger. -/
def bst : binary_tree → Bool
  | .nil => true
  | .node none _ _ => false
  | .node (some q) l r =>
    (binary_tree.sorted_values l).all (fun x => decide (x < q)) &&
    (binary_tree.sorted_values r).all (fun x => decide (q < x)) &&
    bst l && bst r

lemma bst_node_iff (q : ℚ) (l r : binary_tree) :
    bst (.node (some q) l r) = true
      ↔ (∀ x ∈ l.sorted_values, x < q) ∧ (∀ x ∈ r.sorted_values, q < x)
        ∧ bst l = true ∧ bst r = true := by
  simp [bst, List.all_eq_true, and_assoc]

lemma insert_fst_ne_nil (t : binary_tree) (v : Val) (ht : t ≠ .nil) :
    (t.insert v).1 ≠ .nil := by
  cases t with
  | nil => exact absurd rfl ht
  | node w l r =>
    rw [binary_tree.insert.eq_def]
    repeat' split
    all_goals simp_all

lemma mem_sorted_values_insert (t : binary_tree) (q x : ℚ)
    (ht : t ≠ .nil) :
    (x ∈ ((t.insert (some q)).1).sorted_values
      ↔ x = q ∨ x ∈ t.sorted_values) := by
  revert ht
  induction t with
  | nil => intro ht; exact absurd rfl ht
  | node w l r ihl ihr =>
    intro _
    cases w with
    | none =>
      rw [insert_nan]
      simp [binary_tree.sorted_values, vallist]
      itauto
    | some w =>
      rcases lt_trichotomy q w with hlt | heq | hgt
      · cases l with
        | nil =>
          rw [insert_lt_nil q w r hlt]
          simp [binary_tree.sorted_values, vallist, leaf]
        | node lw ll lr =>
          rw [insert_lt_cons q w _ r hlt (by simp)]
          simp [binary_tree.sorted_values, vallist, ihl (by simp)]
          itauto
      · subst heq
        rw [insert_found]
        simp [binary_tree.sorted_values, vallist]
        itauto
      · cases r with
        | nil =>
          rw [insert_gt_nil q w l hgt]
          simp [binary_tree.sorted_values, vallist, leaf]
          itauto
        | node rw2 rl rr =>
          rw [insert_gt_cons q w l _ hgt (by simp)]
          simp [binary_tree.sorted_values, vallist, ihr (by simp)]
          itauto

lemma bst_leaf (q : ℚ) : bst (leaf q) = true := by
  simp [leaf, bst, binary_tree.sorted_values]

lemma bst_insert (t : binary_tree) (q : ℚ) (ht : t ≠ .nil)
    (hb : bst t = true) :
    bst ((t.insert (some q)).1) = true := by
  revert ht hb
  induction t with
  | nil => intro ht _; exact absurd rfl ht
  | node w l r ihl ihr =>
    intro _ hb
    cases w with
    | none => simp [bst] at hb
    | some w =>
      obtain ⟨h1, h2, h3, h4⟩ := (bst_node_iff w l r).mp hb
      rcases lt_trichotomy q w with hlt | heq | hgt
      · cases l with
        | nil =>
          rw [insert_lt_nil q w r hlt]
          refine (bst_node_iff w _ r).mpr ⟨?_, h2, bst_leaf q, h4⟩
          simp [leaf, binary_tree.sorted_values, vallist]
          exact hlt
        | node lw ll lr =>
          rw [insert_lt_cons q w _ r hlt (by simp)]
          refine (bst_node_iff w _ r).mpr ⟨?_, h2, ihl (by simp) h3, h4⟩
          intro x hx
          rcases (mem_sorted_values_insert _ q x (by simp)).mp hx with
            hxq | hxl
          · exact hxq ▸ hlt
          · exact h1 x hxl
      · subst heq
        rw [insert_found]
        exact hb
      · cases r with
        | nil =>
          rw [insert_gt_nil q w l hgt]
          refine (bst_node_iff w l _).mpr ⟨h1, ?_, h3, bst_leaf q⟩
          simp [leaf, binary_tree.sorted_values, vallist]
          exact hgt
        | node rw2 rl rr =>
          rw [insert_gt_cons q w l _ hgt (by simp)]
          refine (bst_node_iff w l _).mpr ⟨h1, ?_, h3, ihr (by simp) h4⟩
          intro x hx
          rcases (mem_sorted_values_insert _ q x (by simp)).mp hx with
            hxq | hxr
          · exact hxq ▸ hgt
          · exact h2 x hxr

lemma sorted_values_pairwise (t : binary_tree) (hb : bst t = true) :
    t.sorted_values.Pairwise (· < ·) := by
  revert hb
  induction t with
  | nil => intro _; simp [binary_tree.sorted_values]
  | node w l r ihl ihr =>
    intro hb
    cases w with
    | none => simp [bst] at hb
    | some w =>
      obtain ⟨h1, h2, h3, h4⟩ := (bst_node_iff w l r).mp hb
      show (binary_tree.sorted_values _).Pairwise (· < ·)
      rw [binary_tree.sorted_values]
      have hrw : l.sorted_values ++ vallist (some w) ++ r.sorted_values
          = l.sorted_values ++ (w :: r.sorted_values) := by
        simp [vallist]
      rw [hrw]
      refine List.pairwise_append.mpr ⟨ihl h3, ?_, ?_⟩
      · exact List.pairwise_cons.mpr ⟨h2, ihr h4⟩
      · intro x hx y hy
        rcases List.mem_cons.mp hy with hyw | hyr
        · exact hyw ▸ h1 x hx
        · exact (h1 x hx).trans (h2 y hyr)

lemma insert_snd_value (t : binary_tree) (q : ℚ) (ht : t ≠ .nil) :
    ((t.insert (some q)).2).value = some q := by
  revert ht
  induction t with
  | nil => intro ht; exact absurd rfl ht
  | node w l r ihl ihr =>
    intro _
    cases w with
    | none => rw [insert_nan]; rfl
    | some w =>
      rcases lt_trichotomy q w with hlt | heq | hgt
      · cases l with
        | nil => rw [insert_lt_nil q w r hlt]; rfl
        | node lw ll lr =>
          rw [insert_lt_cons q w _ r hlt (by simp)]
          exact ihl (by simp)
      · subst heq
        rw [insert_found]
        rfl
      · cases r with
        | nil => rw [insert_gt_nil q w l hgt]; rfl
        | node rw2 rl rr =>
          rw [insert_gt_cons q w l _ hgt (by simp)]
          exact ihr (by simp)

lemma c_insert_eq_cpp (t : binary_tree) (q : ℚ) (ht : t ≠ .nil) :
    binary_tree_insert t (some q) = some (t.insert (some q)) := by
  revert ht
  induction t with
  | nil => intro ht; exact absurd rfl ht
  | node w l r ihl ihr =>
    intro _
    cases w with
    | none => rw [c_insert_nan, insert_nan]
    | some w =>
      rcases lt_trichotomy q w with hlt | heq | hgt
      · cases l with
        | nil => rw [c_insert_lt_nil q w r hlt, insert_lt_nil q w r hlt]
        | node lw ll lr =>
          rw [c_insert_lt_cons q w _ r hlt (by simp),
            insert_lt_cons q w _ r hlt (by simp), ihl (by simp)]
          rfl
      · subst heq
        rw [c_insert_found, insert_found]
      · cases r with
        | nil => rw [c_insert_gt_nil q w l hgt, insert_gt_nil q w l hgt]
        | node rw2 rl rr =>
          rw [c_insert_gt_cons q w l _ hgt (by simp),
            insert_gt_cons q w l _ hgt (by simp), ihr (by simp)]
          rfl

lemma c_sorted_values_eq_cpp (t : binary_tree) (hb : bst t = true) :
    binary_tree_sorted_values t = t.sorted_values := by
  revert hb
  induction t with
  | nil => intro _; rfl
  | node w l r ihl ihr =>
    intro hb
    cases w with
    | none => simp [bst] at hb
    | some w =>
      obtain ⟨_, _, h3, h4⟩ := (bst_node_iff w l r).mp hb
      rw [binary_tree_sorted_values, binary_tree.sorted_values, ihl h3,
        ihr h4]
      rfl

/-- The root every test builds from: a default-constructed node, NaN
value and both child slots NULL. -/
def empty_root : binary_tree := .node none .nil .nil

/-- Folding `insert` over a list of finite values, keeping the updated
tree (the harness the spec's round-trip property quantifies over). -/
def insert_all (t : binary_tree) (xs : List ℚ) : binary_tree :=
  xs.foldl (fun t x => (t.insert (some x)).1) t

lemma insert_all_props (xs : List ℚ) :
    ∀ t : binary_tree, t ≠ .nil → bst t = true →
      insert_all t xs ≠ .nil ∧ bst (insert_all t xs) = true ∧
      (∀ x, x ∈ (insert_all t xs).sorted_values
        ↔ x ∈ t.sorted_values ∨ x ∈ xs) := by
  induction xs with
  | nil =>
    intro t ht hb
    exact ⟨ht, hb, by simp [insert_all]⟩
  | cons y ys ih =>
    intro t ht hb
    have hstep : insert_all t (y :: ys) = insert_all ((t.insert (some y)).1) ys := by
      simp [insert_all]
    have ht' : (t.insert (some y)).1 ≠ .nil := insert_fst_ne_nil t _ ht
    have hb' : bst ((t.insert (some y)).1) = true := bst_insert t y ht hb
    obtain ⟨h1, h2, h3⟩ := ih ((t.insert (some y)).1) ht' hb'
    refine ⟨hstep ▸ h1, hstep ▸ h2, ?_⟩
    intro x
    rw [hstep, h3 x, mem_sorted_values_insert t y x ht]
    simp
    itauto

lemma insert_all_empty_root (x : ℚ) (ys : List ℚ) :
    insert_all empty_root (x :: ys) = insert_all (leaf x) ys := by
  simp [insert_all, empty_root, insert_nan, leaf]

lemma pairwise_lt_nodup (l : List ℚ) (h : l.Pairwise (· < ·)) :
    l.Nodup := h.imp ne_of_lt

lemma sorted_values_leaf (q : ℚ) : (leaf q).sorted_values = [q] := rfl

lemma roundtrip_core (xs : List ℚ) (hnd : xs.Nodup) :
    ((insert_all empty_root xs).sorted_values).Pairwise (· < ·) ∧
    ((insert_all empty_root xs).sorted_values).Perm xs := by
  cases xs with
  | nil =>
    constructor
    · simp [insert_all, empty_root, binary_tree.sorted_values, vallist]
    · simp [insert_all, empty_root, binary_tree.sorted_values, vallist]
  | cons x ys =>
    rw [insert_all_empty_root]
    obtain ⟨h1, h2, h3⟩ :=
      insert_all_props ys (leaf x) (by simp [leaf]) (bst_leaf x)
    have hpw := sorted_values_pairwise _ h2
    refine ⟨hpw, ?_⟩
    refine (List.perm_ext_iff_of_nodup (pairwise_lt_nodup _ hpw) hnd).mpr ?_
    intro z
    rw [h3 z, sorted_values_leaf]
    simp

lemma c_sorted_values_insert_all (xs : List ℚ) :
    binary_tree_sorted_values (insert_all empty_root xs)
      = (insert_all empty_root xs).sorted_values := by
  cases xs with
  | nil => rfl
  | cons x ys =>
    rw [insert_all_empty_root]
    exact c_sorted_values_eq_cpp _
      (insert_all_props ys (leaf x) (by simp [leaf]) (bst_leaf x)).2.1

/-- A `tree` handle (`pdcip::tree` shared_ptr / C `gen_tree *`): `nil`
is the NULL handle, `node` an actual node with its value and children
list.  The C struct stores `n_children` alongside the `children` array
(NULL when the count is zero); both are embedded as the one list, whose
entries may themselves be `nil` (the C++ `binary_tree` subclass stores
NULL entries for absent slots). -/
inductive tree where
  | nil
  | node (value : Val) (children : List tree)

/-- The children list of a node (`tree::children()` / `tree->children`,
with the NULL array of a zero-count C node embedded as `[]`). -/
def tree.children : tree → List tree
  | .nil => []
  | .node _ cs => cs

mutual

/-- Number of handles in a tree (termination measure; a NULL handle
counts one so that dequeuing it strictly shrinks a queue). -/
def tree.gsize : tree → Nat
  | .nil => 1
  | .node _ cs => 1 + gsize_list cs

def gsize_list : List tree → Nat
  | [] => 0
  | c :: rest => c.gsize + gsize_list rest

end

mutual

/-- `tree::dfs` (src/cpp/src/tree.cc:107-130) and `gen_tree_dfs`
(src/c/src/tree.c:151-202) both flatten each (non-NULL) child's subtree
in order and append the root last; NULL children are skipped (C++
`if (child)`) or contribute an empty array (C recursion into NULL).
The `nil` case is the C `if (!tree)` branch returning NULL with a zero
count. -/
def tree.dfs : tree → List tree
  | .nil => []
  | .node v cs => dfs_list cs ++ [.node v cs]

def dfs_list : List tree → List tree
  | [] => []
  | c :: rest => c.dfs ++ dfs_list rest

end

mutual

/-- `gen_tree_dfs` (src/c/src/tree.c:151-202) transliterated with its
own branch structure: NULL tree gives a zero count and NULL array, a
childless node gives the one-element array, otherwise the concatenated
child flattenings with the root written at the last index. -/
def gen_tree_dfs : tree → List tree
  | .nil => []
  | .node v cs =>
    if cs.length = 0 then [.node v cs]
    else gen_tree_dfs_list cs ++ [.node v cs]

/-- The per-child recursion of `gen_tree_dfs` (the loop filling
`nodes_ar` and copying it out in order). -/
def gen_tree_dfs_list : List tree → List tree
  | [] => []
  | c :: rest => gen_tree_dfs c ++ gen_tree_dfs_list rest

end

mutual

/-- Reference enumeration of the (non-NULL) nodes of a subtree, root
first: the specification-level notion of "every node reachable from the
root", used to state completeness of the traversals and of the deep
free. -/
def tree.nodes : tree → List tree
  | .nil => []
  | .node v cs => .node v cs :: nodes_list cs

def nodes_list : List tree → List tree
  | [] => []
  | c :: rest => c.nodes ++ nodes_list rest

end

/-- The non-NULL entries of a children list, in order (the C++ BFS/DFS
`if (child)` filter). -/
def nonnull : List tree → List tree
  | [] => []
  | .nil :: rest => nonnull rest
  | c :: rest => c :: nonnull rest

lemma gsize_list_append (q r : List tree) :
    gsize_list (q ++ r) = gsize_list q + gsize_list r := by
  induction q with
  | nil => simp [gsize_list]
  | cons x xs ih => simp [gsize_list]; omega

lemma gsize_list_nonnull (cs : List tree) :
    gsize_list (nonnull cs) ≤ gsize_list cs := by
  induction cs with
  | nil => simp [nonnull]
  | cons c rest ih =>
    cases c with
    | nil => simp [nonnull, gsize_list]; omega
    | node v cs2 => simp [nonnull, gsize_list]; omega

lemma gsize_nonnull_children_lt (c : tree) :
    gsize_list (nonnull c.children) < c.gsize := by
  cases c with
  | nil => simp [tree.children, nonnull, gsize_list, tree.gsize]
  | node v cs =>
    have h := gsize_list_nonnull cs
    simp [tree.children, tree.gsize]
    omega

lemma bfs_queue_dec (c : tree) (rest : List tree) :
    gsize_list (rest ++ nonnull c.children) < gsize_list (c :: rest) := by
  have h := gsize_nonnull_children_lt c
  simp [gsize_list_append, gsize_list]
  omega

/-- The FIFO loop of `tree::bfs` (src/cpp/src/tree.cc:138-155): dequeue
the front node, enqueue its non-NULL children in order, append the
dequeued node to the output, until the queue is empty. -/
def bfs_loop : List tree → List tree
  | [] => []
  | t :: rest => t :: bfs_loop (rest ++ nonnull t.children)
termination_by q => gsize_list q
decreasing_by
  exact bfs_queue_dec _ _

/-- `tree::bfs` (src/cpp/src/tree.cc:138-155): run the queue loop from
the singleton queue holding the root. -/
def tree.bfs (root : tree) : List tree := bfs_loop [root]

/-- `make_tree_ptr_vector` (src/cpp/include/pdcip/cpp/tree.h:89-101),
also `tree::make_children`: one new leaf per value, in order (each is
constructed as `tree_t(values[i])`, whose default children list is
empty). -/
def make_tree_ptr_vector (values : List Val) : List tree :=
  values.map (fun v => tree.node v [])

/-- `gen_tree_make_children` (src/c/src/tree.c:103-114).  The `values`
pointer is embedded as `Option (List Val)` (`none` = NULL).  The outer
`Option` of the result is the `assert(values && ...)` guard (and the
bounds of the reads `values[i]`, `i < n`); the inner `Option` is the
returned pointer, NULL (`none`) when `n` is zero. -/
def gen_tree_make_children (n : Nat) (values : Option (List Val)) :
    Option (Option (List tree)) :=
  match values with
  | none => none
  | some vs =>
    if n = 0 then some none
    else if n ≤ vs.length then
      some (some ((vs.take n).map (fun v => tree.node v [])))
    else none

lemma gsize_pos (t : tree) : 0 < t.gsize := by
  cases t <;> simp [tree.gsize]

/-- Simultaneous induction over `tree` and `List tree` (the nested
recursion the traversal functions use), derived by strong induction on
the size. -/
lemma tree.ind_pair (P : tree → Prop) (Q : List tree → Prop)
    (hnil : P .nil) (hnode : ∀ v cs, Q cs → P (.node v cs))
    (hqnil : Q []) (hqcons : ∀ c rest, P c → Q rest → Q (c :: rest)) :
    (∀ t, P t) ∧ (∀ cs, Q cs) := by
  have key : ∀ n, (∀ t, tree.gsize t ≤ n → P t) ∧
      (∀ cs, gsize_list cs ≤ n → Q cs) := by
    intro n
    induction n using Nat.strong_induction_on with
    | _ n ih =>
      have hP : ∀ t, tree.gsize t ≤ n → P t := by
        intro t hle
        cases t with
        | nil => exact hnil
        | node v cs =>
          apply hnode
          have h1 : gsize_list cs < n := by
            simp [tree.gsize] at hle
            omega
          exact (ih (gsize_list cs) h1).2 cs le_rfl
      have hQ : ∀ cs, gsize_list cs ≤ n → Q cs := by
        intro cs hle
        cases cs with
        | nil => exact hqnil
        | cons c rest =>
          have hp := gsize_pos c
          have hle2 : tree.gsize c + gsize_list rest ≤ n := by
            simpa [gsize_list] using hle
          refine hqcons c rest (hP c (by omega)) ?_
          have h2 : gsize_list rest < n := by omega
          exact (ih (gsize_list rest) h2).2 rest le_rfl
      exact ⟨hP, hQ⟩
  exact ⟨fun t => (key (tree.gsize t)).1 t le_rfl,
    fun cs => (key (gsize_list cs)).2 cs le_rfl⟩

mutual

def tree.deq : (a b : tree) → Decidable (a = b)
  | .nil, .nil => .isTrue rfl
  | .nil, .node _ _ => .isFalse (fun h => tree.noConfusion h)
  | .node _ _, .nil => .isFalse (fun h => tree.noConfusion h)
  | .node v cs, .node w ds =>
    match decEq v w, deq_list cs ds with
    | .isTrue h1, .isTrue h2 => .isTrue (by rw [h1, h2])
    | .isFalse h1, _ =>
      .isFalse (fun h => tree.noConfusion h (fun hv _ => h1 hv))
    | _, .isFalse h2 =>
      .isFalse (fun h => tree.noConfusion h (fun _ hcs => h2 hcs))

def deq_list : (a b : List tree) → Decidable (a = b)
  | [], [] => .isTrue rfl
  | [], _ :: _ => .isFalse (fun h => List.noConfusion h)
  | _ :: _, [] => .isFalse (fun h => List.noConfusion h)
  | a :: as2, b :: bs =>
    match tree.deq a b, deq_list as2 bs with
    | .isTrue h1, .isTrue h2 => .isTrue (by rw [h1, h2])
    | .isFalse h1, _ =>
      .isFalse (fun h => List.noConfusion h (fun hh _ => h1 hh))
    | _, .isFalse h2 =>
      .isFalse (fun h => List.noConfusion h (fun _ ht => h2 ht))

end

instance : DecidableEq tree := tree.deq

/-- `free(p)` on a single node pointer: frees the node, or nothing for
NULL (`free(NULL)` is a no-op). -/
def free_one : tree → List tree
  | .nil => []
  | c => [c]

mutual

/-- The nodes freed by `gen_tree_free_children_(tree, deep)`
(src/c/src/tree.c:62-77, and identically src/c/src/structures/tree.c:
60-74), in call order: for each child, first its recursively freed
subtree when `deep`, then the child node itself; a node with a NULL
children array frees nothing. -/
def gen_tree_free_children_frees : tree → Bool → List tree
  | .nil, _ => []
  | .node _ cs, deep => free_children_list cs deep

def free_children_list : List tree → Bool → List tree
  | [], _ => []
  | c :: rest, deep =>
    (if deep then gen_tree_free_children_frees c true else []) ++
      free_one c ++ free_children_list rest deep

end

/-- The nodes freed by `gen_tree_free_deep` of src/c/src/tree.c:87-92:
`gen_tree_free_children_deep(tree); gen_tree_free(tree);`. -/
def gen_tree_free_deep_frees (t : tree) : List tree :=
  gen_tree_free_children_frees t true ++ free_one t

/-- The nodes freed by `gen_tree_free_deep` of
src/c/src/structures/tree.c:84-89: `gen_tree_free_children(tree);
free(tree);` — the children pass runs with `deep = false`. -/
def structures_gen_tree_free_deep_frees (t : tree) : List tree :=
  gen_tree_free_children_frees t false ++ free_one t

/-- One BFS round: the non-NULL children, in order, of every node of
the list. -/
def kids_list (ts : List tree) : List tree :=
  ts.flatMap (fun t => nonnull t.children)

/-- The nodes at depth `n` of the forest `ts` (depth 0 = the roots
themselves), following non-NULL children only. -/
def forest_level : List tree → Nat → List tree
  | ts, 0 => ts
  | ts, n + 1 => forest_level (kids_list ts) n

lemma dfs_nil : tree.dfs .nil = [] := rfl

lemma dfs_node (v : Val) (cs : List tree) :
    tree.dfs (.node v cs) = dfs_list cs ++ [.node v cs] := rfl

lemma dfs_list_nil : dfs_list [] = [] := rfl

lemma dfs_list_cons (c : tree) (rest : List tree) :
    dfs_list (c :: rest) = c.dfs ++ dfs_list rest := rfl

lemma nodes_nil : tree.nodes .nil = [] := rfl

lemma nodes_node (v : Val) (cs : List tree) :
    tree.nodes (.node v cs) = .node v cs :: nodes_list cs := rfl

lemma nodes_list_nil : nodes_list [] = [] := rfl

lemma nodes_list_cons (c : tree) (rest : List tree) :
    nodes_list (c :: rest) = c.nodes ++ nodes_list rest := rfl

lemma gen_tree_dfs_nil : gen_tree_dfs .nil = [] := rfl

lemma gen_tree_dfs_node (v : Val) (cs : List tree) :
    gen_tree_dfs (.node v cs)
      = if cs.length = 0 then [.node v cs]
        else gen_tree_dfs_list cs ++ [.node v cs] := rfl

lemma gen_tree_dfs_list_nil : gen_tree_dfs_list [] = [] := rfl

lemma gen_tree_dfs_list_cons (c : tree) (rest : List tree) :
    gen_tree_dfs_list (c :: rest)
      = gen_tree_dfs c ++ gen_tree_dfs_list rest := rfl

lemma free_children_frees_nil (deep : Bool) :
    gen_tree_free_children_frees .nil deep = [] := rfl

lemma free_children_frees_node (v : Val) (cs : List tree) (deep : Bool) :
    gen_tree_free_children_frees (.node v cs) deep
      = free_children_list cs deep := rfl

lemma free_children_list_nil (deep : Bool) :
    free_children_list [] deep = [] := rfl

lemma free_children_list_cons (c : tree) (rest : List tree)
    (deep : Bool) :
    free_children_list (c :: rest) deep
      = (if deep then gen_tree_free_children_frees c true else []) ++
          free_one c ++ free_children_list rest deep := rfl

lemma dfs_list_eq_flatMap (cs : List tree) :
    dfs_list cs = (nonnull cs).flatMap tree.dfs := by
  induction cs with
  | nil => simp [dfs_list_nil, nonnull]
  | cons c rest ih =>
    cases c with
    | nil => simp [dfs_list_cons, nonnull, dfs_nil, ih]
    | node v cs2 => simp [dfs_list_cons, nonnull, ih]

lemma nodes_list_eq_flatMap (cs : List tree) :
    nodes_list cs = cs.flatMap tree.nodes := by
  induction cs with
  | nil => simp [nodes_list_nil]
  | cons c rest ih => simp [nodes_list_cons, ih]

lemma nonnull_flatMap_nodes (cs : List tree) :
    (nonnull cs).flatMap tree.nodes = cs.flatMap tree.nodes := by
  induction cs with
  | nil => simp [nonnull]
  | cons c rest ih =>
    cases c with
    | nil => simp [nonnull, nodes_nil, ih]
    | node v cs2 => simp [nonnull, ih]

lemma dfs_gsize_le :
    (∀ t : tree, ∀ x ∈ t.dfs, tree.gsize x ≤ tree.gsize t) ∧
    (∀ cs : List tree, ∀ x ∈ dfs_list cs, tree.gsize x ≤ gsize_list cs) := by
  have h := tree.ind_pair
    (fun t => ∀ x ∈ t.dfs, tree.gsize x ≤ tree.gsize t)
    (fun cs => ∀ x ∈ dfs_list cs, tree.gsize x ≤ gsize_list cs)
    (by simp [dfs_nil])
    (by
      intro v cs hq x hx
      rw [dfs_node] at hx
      rcases List.mem_append.mp hx with hx1 | hx2
      · have := hq x hx1
        simp [tree.gsize]
        omega
      · simp at hx2
        simp [hx2])
    (by simp [dfs_list_nil])
    (by
      intro c rest hc hrest x hx
      rw [dfs_list_cons] at hx
      rcases List.mem_append.mp hx with hx1 | hx2
      · have := hc x hx1
        simp [gsize_list]
        omega
      · have := hrest x hx2
        simp [gsize_list]
        omega)
  exact ⟨fun t => h.1 t, fun cs => h.2 cs⟩

lemma gen_tree_dfs_eq_dfs : ∀ t : tree, gen_tree_dfs t = t.dfs := by
  have h := tree.ind_pair
    (fun t => gen_tree_dfs t = t.dfs)
    (fun cs => gen_tree_dfs_list cs = dfs_list cs)
    (by show gen_tree_dfs .nil = tree.dfs .nil
        rw [gen_tree_dfs_nil, dfs_nil])
    (by
      intro v cs hq
      rw [gen_tree_dfs_node, dfs_node]
      by_cases hz : cs.length = 0
      · rw [List.length_eq_zero] at hz
        subst hz
        simp [dfs_list_nil]
      · simp [hz, hq])
    (by show gen_tree_dfs_list [] = dfs_list []
        rw [gen_tree_dfs_list_nil, dfs_list_nil])
    (by
      intro c rest hc hrest
      rw [gen_tree_dfs_list_cons, dfs_list_cons, hc, hrest])
  exact fun t => h.1 t

lemma dfs_perm_nodes : ∀ t : tree, (t.dfs).Perm t.nodes := by
  have h := tree.ind_pair
    (fun t => (t.dfs).Perm t.nodes)
    (fun cs => (dfs_list cs).Perm (nodes_list cs))
    (by show (tree.dfs .nil).Perm (tree.nodes .nil)
        rw [dfs_nil, nodes_nil])
    (by
      intro v cs hq
      rw [dfs_node, nodes_node]
      exact (List.perm_append_singleton _ _).trans (hq.cons _))
    (by show (dfs_list []).Perm (nodes_list [])
        rw [dfs_list_nil, nodes_list_nil])
    (by
      intro c rest hc hrest
      rw [dfs_list_cons, nodes_list_cons]
      exact hc.append hrest)
  exact fun t => h.1 t

lemma free_deep_perm_nodes :
    ∀ t : tree, (gen_tree_free_deep_frees t).Perm t.nodes := by
  have h := tree.ind_pair
    (fun t => (gen_tree_free_deep_frees t).Perm t.nodes)
    (fun cs => (free_children_list cs true).Perm (nodes_list cs))
    (by
      show (gen_tree_free_deep_frees .nil).Perm (tree.nodes .nil)
      rw [gen_tree_free_deep_frees, free_children_frees_nil, nodes_nil]
      rfl)
    (by
      intro v cs hq
      rw [gen_tree_free_deep_frees, free_children_frees_node, nodes_node]
      show (free_children_list cs true ++ [tree.node v cs]).Perm _
      exact (List.perm_append_singleton _ _).trans (hq.cons _))
    (by show (free_children_list [] true).Perm (nodes_list [])
        rw [free_children_list_nil, nodes_list_nil])
    (by
      intro c rest hc hrest
      rw [free_children_list_cons, nodes_list_cons]
      simp only [if_true]
      exact List.Perm.append hc hrest)
  exact fun t => h.1 t

lemma bfs_loop_nil : bfs_loop [] = [] := by
  rw [bfs_loop]

lemma bfs_loop_cons (t : tree) (rest : List tree) :
    bfs_loop (t :: rest) = t :: bfs_loop (rest ++ nonnull t.children) := by
  rw [bfs_loop]

lemma kids_list_nil : kids_list [] = [] := by
  simp [kids_list]

lemma kids_list_cons (a : tree) (l : List tree) :
    kids_list (a :: l) = nonnull a.children ++ kids_list l := by
  simp [kids_list]

lemma bfs_loop_round (as : List tree) :
    ∀ bs : List tree,
      bfs_loop (as ++ bs) = as ++ bfs_loop (bs ++ kids_list as) := by
  induction as with
  | nil => intro bs; simp [kids_list_nil]
  | cons a as2 ih =>
    intro bs
    rw [List.cons_append, bfs_loop_cons, List.append_assoc,
      ih (bs ++ nonnull a.children), kids_list_cons, List.append_assoc]
    rfl

lemma kids_list_le (ts : List tree) :
    gsize_list (kids_list ts) ≤ gsize_list ts := by
  induction ts with
  | nil => simp [kids_list_nil, gsize_list]
  | cons a l ih =>
    have h := gsize_nonnull_children_lt a
    rw [kids_list_cons, gsize_list_append]
    simp [gsize_list]
    omega

lemma kids_list_lt (ts : List tree) (h : ts ≠ []) :
    gsize_list (kids_list ts) < gsize_list ts := by
  cases ts with
  | nil => exact absurd rfl h
  | cons a l =>
    have h1 := gsize_nonnull_children_lt a
    have h2 := kids_list_le l
    rw [kids_list_cons, gsize_list_append]
    simp [gsize_list]
    omega

lemma bfs_loop_rounds (ts : List tree) :
    bfs_loop ts = ts ++ bfs_loop (kids_list ts) := by
  have h := bfs_loop_round ts []
  simpa using h

lemma forest_level_zero (ts : List tree) : forest_level ts 0 = ts := rfl

lemma forest_level_succ (ts : List tree) (n : Nat) :
    forest_level ts (n + 1) = forest_level (kids_list ts) n := rfl

lemma bfs_loop_levels :
    ∀ (n : Nat) (ts : List tree), gsize_list ts ≤ n →
      ∃ d, bfs_loop ts = (List.range d).flatMap (forest_level ts) := by
  intro n
  induction n using Nat.strong_induction_on with
  | _ n ih =>
    intro ts hts
    cases ts with
    | nil =>
      refine ⟨0, ?_⟩
      rw [bfs_loop_nil]
      simp
    | cons a rest =>
      have hlt := kids_list_lt (a :: rest) (by simp)
      obtain ⟨d, hd⟩ :=
        ih (gsize_list (kids_list (a :: rest))) (by omega)
          (kids_list (a :: rest)) le_rfl
      refine ⟨d + 1, ?_⟩
      rw [bfs_loop_rounds, hd, List.range_succ_eq_map]
      simp only [List.flatMap_cons, List.flatMap_map]
      rw [forest_level_zero]
      congr 1

lemma nonnull_mem_ne_nil :
    ∀ (cs : List tree) (x : tree), x ∈ nonnull cs → x ≠ .nil := by
  intro cs
  induction cs with
  | nil => intro x hx; simp [nonnull] at hx
  | cons c rest ih =>
    intro x hx
    cases c with
    | nil =>
      rw [show nonnull (tree.nil :: rest) = nonnull rest from rfl] at hx
      exact ih x hx
    | node v cs2 =>
      rw [show nonnull (tree.node v cs2 :: rest)
            = tree.node v cs2 :: nonnull rest from rfl] at hx
      rcases List.mem_cons.mp hx with h1 | h2
      · subst h1; exact fun h => tree.noConfusion h
      · exact ih x h2

lemma flatMap_cons_perm (l : List tree) (g : tree → List tree) :
    (l.flatMap (fun a => a :: g a)).Perm (l ++ l.flatMap g) := by
  induction l with
  | nil => simp
  | cons a l2 ih =>
    simp only [List.flatMap_cons, List.cons_append]
    exact List.Perm.cons a ((List.Perm.append_left (g a) ih).trans
      (List.perm_append_comm_assoc (g a) l2 (l2.flatMap g)))

lemma nodes_eq_cons (t : tree) (ht : t ≠ .nil) :
    t.nodes = t :: (nonnull t.children).flatMap tree.nodes := by
  cases t with
  | nil => exact absurd rfl ht
  | node v cs =>
    rw [nodes_node, nodes_list_eq_flatMap, ← nonnull_flatMap_nodes]
    rfl

lemma bfs_loop_perm :
    ∀ (n : Nat) (ts : List tree), gsize_list ts ≤ n →
      (∀ t ∈ ts, t ≠ .nil) →
      (bfs_loop ts).Perm (ts.flatMap tree.nodes) := by
  intro n
  induction n using Nat.strong_induction_on with
  | _ n ih =>
    intro ts hts hnn
    cases ts with
    | nil => rw [bfs_loop_nil]; simp
    | cons a rest =>
      have hlt := kids_list_lt (a :: rest) (by simp)
      have hkid_nn : ∀ t ∈ kids_list (a :: rest), t ≠ .nil := by
        intro t ht
        rcases List.mem_flatMap.mp ht with ⟨u, _, htu⟩
        exact nonnull_mem_ne_nil _ t htu
      have hperm :=
        ih (gsize_list (kids_list (a :: rest))) (by omega)
          (kids_list (a :: rest)) le_rfl hkid_nn
      rw [bfs_loop_rounds]
      have hmain :
          ((a :: rest).flatMap tree.nodes).Perm
            ((a :: rest) ++ (kids_list (a :: rest)).flatMap tree.nodes) := by
        have hcongr : (a :: rest).flatMap tree.nodes
            = (a :: rest).flatMap
                (fun t => t :: (nonnull t.children).flatMap tree.nodes) :=
          List.flatMap_congr (fun x hx => nodes_eq_cons x (hnn x hx))
        rw [hcongr]
        have h1 := flatMap_cons_perm (a :: rest)
          (fun t => (nonnull t.children).flatMap tree.nodes)
        have h2 : (a :: rest).flatMap
              (fun t => (nonnull t.children).flatMap tree.nodes)
            = (kids_list (a :: rest)).flatMap tree.nodes := by
          rw [kids_list, List.flatMap_assoc]
        rw [h2] at h1
        exact h1
      exact ((List.Perm.append_left (a :: rest) hperm).trans
        hmain.symm).symm.symm

/-- C1: for every finite set of distinct finite (non-NaN) doubles
inserted in any order into a root starting in the empty
(sentinel-valued, childless) state, `sorted_values()` returns exactly
the ascending sort of that set: the output is strictly ascending and a
permutation of the inserted values (which characterises the ascending
sort uniquely), the C and C++ implementations agree on it, and it does
not depend on the insertion order. -/
theorem C1_sorted_values_roundtrip (xs : List ℚ) (hnd : xs.Nodup) :
    ((insert_all empty_root xs).sorted_values).Pairwise (· < ·) ∧
    ((insert_all empty_root xs).sorted_values).Perm xs ∧
    binary_tree_sorted_values (insert_all empty_root xs)
      = (insert_all empty_root xs).sorted_values ∧
    ∀ ys : List ℚ, ys.Perm xs →
      (insert_all empty_root ys).sorted_values
        = (insert_all empty_root xs).sorted_values := by
  obtain ⟨hpw, hperm⟩ := roundtrip_core xs hnd
  refine ⟨hpw, hperm, c_sorted_values_insert_all xs, ?_⟩
  intro ys hys
  obtain ⟨hpw2, hperm2⟩ := roundtrip_core ys (hys.symm.nodup hnd)
  haveI : IsAntisymm ℚ (· < ·) := ⟨fun a b h1 h2 => absurd h2 (lt_asymm h1)⟩
  exact List.eq_of_perm_of_sorted (hperm2.trans (hys.trans hperm.symm))
    hpw2 hpw

theorem C1_witness :
    (([2, 1] : List ℚ).Nodup) ∧
    (((insert_all empty_root [2, 1]).sorted_values).Pairwise (· < ·) ∧
     ((insert_all empty_root [2, 1]).sorted_values).Perm [2, 1] ∧
     binary_tree_sorted_values (insert_all empty_root [2, 1])
       = (insert_all empty_root [2, 1]).sorted_values ∧
     ∀ ys : List ℚ, ys.Perm [2, 1] →
       (insert_all empty_root ys).sorted_values
         = (insert_all empty_root [2, 1]).sorted_values) :=
  ⟨by decide, C1_sorted_values_roundtrip [2, 1] (by decide)⟩

/-- C2: `insert` follows the specified recursion — a sentinel-valued
node adopts the value and returns itself; an equal value leaves the
tree unchanged and returns the node; a smaller value goes left,
first installing an empty placeholder node when the left slot is NULL,
and symmetrically right for a larger value — and the returned handle is
always the node whose value is the inserted value. -/
theorem C2_insert_recursion :
    (∀ (v : Val) (l r : binary_tree),
      (binary_tree.node none l r).insert v = (.node v l r, .node v l r)) ∧
    (∀ (q : ℚ) (l r : binary_tree),
      (binary_tree.node (some q) l r).insert (some q)
        = (.node (some q) l r, .node (some q) l r)) ∧
    (∀ (q w : ℚ) (r : binary_tree), q < w →
      (binary_tree.node (some w) .nil r).insert (some q)
        = (.node (some w)
            ((binary_tree.node none .nil .nil).insert (some q)).1 r,
           ((binary_tree.node none .nil .nil).insert (some q)).2)) ∧
    (∀ (q w : ℚ) (l r : binary_tree), q < w → l ≠ .nil →
      (binary_tree.node (some w) l r).insert (some q)
        = (.node (some w) (l.insert (some q)).1 r,
           (l.insert (some q)).2)) ∧
    (∀ (q w : ℚ) (l : binary_tree), w < q →
      (binary_tree.node (some w) l .nil).insert (some q)
        = (.node (some w) l
            ((binary_tree.node none .nil .nil).insert (some q)).1,
           ((binary_tree.node none .nil .nil).insert (some q)).2)) ∧
    (∀ (q w : ℚ) (l r : binary_tree), w < q → r ≠ .nil →
      (binary_tree.node (some w) l r).insert (some q)
        = (.node (some w) l (r.insert (some q)).1,
           (r.insert (some q)).2)) ∧
    (∀ (t : binary_tree) (q : ℚ), t ≠ .nil →
      ((t.insert (some q)).2).value = some q) := by
  refine ⟨insert_nan, insert_found, ?_, ?_, ?_, ?_, insert_snd_value⟩
  · intro q w r h
    rw [insert_lt_nil q w r h, insert_nan]
    rfl
  · exact fun q w l r h hl => insert_lt_cons q w l r h hl
  · intro q w l h
    rw [insert_gt_nil q w l h, insert_nan]
    rfl
  · exact fun q w l r h hr => insert_gt_cons q w l r h hr

theorem C2_witness :
    ((1 : ℚ) < 2 ∧ (leaf 1 : binary_tree) ≠ .nil) ∧
    (binary_tree.node (some 2) (leaf 1) .nil).insert (some 1)
      = (.node (some 2) ((leaf 1).insert (some 1)).1 .nil,
         ((leaf 1).insert (some 1)).2) :=
  ⟨⟨by norm_num, by decide⟩,
   C2_insert_recursion.2.2.2.1 1 2 (leaf 1) .nil (by norm_num) (by decide)⟩

/-- C3 counterexample: the C++ `binary_tree::insert` performs no NaN
precondition check.  Inserting NaN into the node holding 1.0 silently
descends right, creates an empty placeholder node which then adopts NaN
and is returned — the tree is mutated and a node is returned instead of
any precondition failure. -/
theorem C3_counterexample :
    (binary_tree.insert (.node (some 1) .nil .nil) none).1
        = .node (some 1) .nil (.node none .nil .nil) ∧
    (binary_tree.insert (.node (some 1) .nil .nil) none).2
        = .node none .nil .nil ∧
    (binary_tree.insert (.node (some 1) .nil .nil) none).1
        ≠ .node (some 1) .nil .nil := by
  have h : binary_tree.insert (.node (some 1) .nil .nil) none
      = (.node (some 1) .nil (.node none .nil .nil),
         .node none .nil .nil) := by
    rw [binary_tree.insert.eq_def]
    simp only [visnan, veq, vlt, Bool.false_eq_true, if_false, dite_false]
    rw [binary_tree.insert.eq_def]
    simp [visnan]
  refine ⟨by rw [h], by rw [h], by rw [h]; decide⟩

/-- C3 amended: only the C implementation guards insertion with
`assert(tree && !isnan(value))`: `binary_tree_insert` fails its
precondition for the NaN value on every node, and agrees with the C++
method on every non-NaN value; the C++ method itself performs no NaN
check (see the counterexample). -/
theorem C3_amended :
    (∀ t : binary_tree, binary_tree_insert t none = none) ∧
    (∀ (t : binary_tree) (q : ℚ), t ≠ .nil →
      binary_tree_insert t (some q) = some (t.insert (some q))) := by
  constructor
  · intro t
    cases t with
    | nil => exact c_insert_nil none
    | node w l r => exact c_insert_nanval w l r
  · exact fun t q ht => c_insert_eq_cpp t q ht

theorem C3_witness :
    ((leaf 1 : binary_tree) ≠ .nil) ∧
    binary_tree_insert (leaf 1) (some 2)
      = some ((leaf 1).insert (some 2)) :=
  ⟨by decide, C3_amended.2 (leaf 1) 2 (by decide)⟩

/-- C4: `dfs` flattens, for each non-NULL child left to right, that
child's subtree first, and appends the root last; a root whose children
are all absent yields exactly the singleton of the root; the root is
last and never first unless it is the only node; and the C
`gen_tree_dfs` computes the same flattening (with the NULL tree giving
the empty result). -/
theorem C4_dfs_flattening (v : Val) (cs : List tree) :
    tree.dfs (.node v cs)
        = (nonnull cs).flatMap tree.dfs ++ [.node v cs] ∧
    (nonnull cs = [] → tree.dfs (.node v cs) = [.node v cs]) ∧
    (tree.dfs (.node v cs)).getLast? = some (.node v cs) ∧
    (1 < (tree.dfs (.node v cs)).length →
      (tree.dfs (.node v cs)).head? ≠ some (.node v cs)) ∧
    gen_tree_dfs (.node v cs) = tree.dfs (.node v cs) ∧
    gen_tree_dfs .nil = [] := by
  refine ⟨?_, ?_, ?_, ?_, gen_tree_dfs_eq_dfs _, rfl⟩
  · rw [dfs_node, dfs_list_eq_flatMap]
  · intro h
    rw [dfs_node, dfs_list_eq_flatMap, h]
    rfl
  · rw [dfs_node]
    exact List.getLast?_concat _
  · intro hlen hhead
    rw [dfs_node] at hlen hhead
    have hne : dfs_list cs ≠ [] := by
      intro hnil
      rw [hnil] at hlen
      simp at hlen
    rw [List.head?_append, List.head?_eq_head hne] at hhead
    have hht : (dfs_list cs).head hne = tree.node v cs := by
      simpa using hhead
    have hmem : (tree.node v cs) ∈ dfs_list cs := hht ▸ List.head_mem hne
    have hle := dfs_gsize_le.2 cs _ hmem
    have hsz : tree.gsize (tree.node v cs) = 1 + gsize_list cs := rfl
    rw [hsz] at hle
    omega

theorem C4_witness :
    (nonnull [(.nil : tree)] = []) ∧
    tree.dfs (.node (some 1) [.nil]) = [.node (some 1) [.nil]] ∧
    (1 < (tree.dfs (.node (some 1) [.node (some 2) []])).length) ∧
    (tree.dfs (.node (some 1) [.node (some 2) []])).head?
      ≠ some (.node (some 1) [.node (some 2) []]) :=
  ⟨by decide, (C4_dfs_flattening (some 1) [.nil]).2.1 (by decide),
   by decide,
   (C4_dfs_flattening (some 1) [.node (some 2) []]).2.2.2.1 (by decide)⟩

/-- C5: `bfs` is the level-order flattening produced by the FIFO queue:
depth level 0 of the root is the root itself, depth level 1 is exactly
the non-NULL children in child order (absent slots are never enqueued),
and the whole output is the concatenation of the depth levels in
increasing order. -/
theorem C5_bfs_level_order (v : Val) (cs : List tree) :
    forest_level [tree.node v cs] 0 = [tree.node v cs] ∧
    forest_level [tree.node v cs] 1 = nonnull cs ∧
    ∃ d, tree.bfs (.node v cs)
        = (List.range d).flatMap (forest_level [.node v cs]) := by
  refine ⟨rfl, ?_, ?_⟩
  · rw [forest_level_succ, forest_level_zero]
    simp [kids_list, tree.children]
  · exact bfs_loop_levels (gsize_list [.node v cs]) [.node v cs] le_rfl

/-- C6 counterexample: on a sentinel-valued root with a left child
holding 1.0, the C `binary_tree_sorted_values` returns the empty
sequence — it does not include the child's value — while the C++
implementation returns [1.0] as the claim describes. -/
theorem C6_counterexample :
    binary_tree_sorted_values
        (.node none (.node (some 1) .nil .nil) .nil) = [] ∧
    binary_tree.sorted_values
        (.node none (.node (some 1) .nil .nil) .nil) = [1] := by
  exact ⟨rfl, rfl⟩

/-- C6 amended: in the C++ implementation a sentinel-valued node
contributes nothing itself while its subtrees still contribute; the C
implementation instead returns the empty sequence for any
sentinel-valued node, dropping its children entirely. -/
theorem C6_amended :
    (∀ l r : binary_tree,
      binary_tree.sorted_values (.node none l r)
        = l.sorted_values ++ r.sorted_values) ∧
    (∀ l r : binary_tree,
      binary_tree_sorted_values (.node none l r) = []) := by
  constructor
  · intro l r
    rw [binary_tree.sorted_values]
    simp [vallist]
  · intro l r
    rfl

/-- C7 counterexample: in the C variant the assertion
`assert(values && ...)` precedes the `if (!n)` check, so the canonical
empty call — count 0 with the NULL pointer, the representation the rest
of the API uses for an empty array — is a precondition failure rather
than an empty result. -/
theorem C7_counterexample : gen_tree_make_children 0 none = none := rfl

/-- C7 amended: the C++ `make_tree_ptr_vector` always produces one new
leaf per value, in order, and the empty vector for the empty input; the
C `gen_tree_make_children` behaves the same way except that its
`values` pointer must be non-NULL even when N = 0 (it then returns
NULL, the empty-collection representation). -/
theorem C7_amended :
    (∀ values : List Val,
      (make_tree_ptr_vector values).length = values.length) ∧
    (∀ (values : List Val) (i : Nat),
      (make_tree_ptr_vector values)[i]?
        = (values[i]?).map (fun v => tree.node v [])) ∧
    make_tree_ptr_vector [] = [] ∧
    (∀ vs : List Val, gen_tree_make_children 0 (some vs) = some none) ∧
    (∀ (n : Nat) (vs : List Val), n ≠ 0 → n ≤ vs.length →
      gen_tree_make_children n (some vs)
        = some (some ((vs.take n).map (fun v => tree.node v [])))) ∧
    gen_tree_make_children 0 none = none := by
  refine ⟨?_, ?_, rfl, ?_, ?_, rfl⟩
  · intro values
    simp [make_tree_ptr_vector]
  · intro values i
    simp [make_tree_ptr_vector]
  · intro vs
    simp [gen_tree_make_children]
  · intro n vs h1 h2
    simp [gen_tree_make_children, h1, h2]

theorem C7_witness :
    ((2 : Nat) ≠ 0 ∧ 2 ≤ ([some 5, none] : List Val).length) ∧
    gen_tree_make_children 2 (some [some 5, none])
      = some (some ((([some 5, none] : List Val).take 2).map
          (fun v => tree.node v []))) :=
  ⟨⟨by decide, by decide⟩,
   C7_amended.2.2.2.2.1 2 [some 5, none] (by decide) (by decide)⟩

/-- C8: re-inserting a value already stored in a BST-invariant tree
leaves the whole tree unchanged and returns the node holding that
value. -/
theorem C8_reinsert_idempotent (t : binary_tree) (q : ℚ)
    (ht : t ≠ .nil) (hb : bst t = true) (hq : q ∈ t.sorted_values) :
    (t.insert (some q)).1 = t ∧
    ((t.insert (some q)).2).value = some q := by
  revert ht hb hq
  induction t with
  | nil => intro ht _ _; exact absurd rfl ht
  | node w l r ihl ihr =>
    intro _ hb hq
    cases w with
    | none => simp [bst] at hb
    | some w =>
      obtain ⟨h1, h2, h3, h4⟩ := (bst_node_iff w l r).mp hb
      have hq2 : q ∈ l.sorted_values ∨ q = w ∨ q ∈ r.sorted_values := by
        rw [binary_tree.sorted_values] at hq
        simp [vallist] at hq
        itauto
      rcases lt_trichotomy q w with hlt | heq | hgt
      · have hql : q ∈ l.sorted_values := by
          rcases hq2 with h | h | h
          · exact h
          · exact absurd (h ▸ hlt) (lt_irrefl w)
          · exact absurd hlt (not_lt_of_lt (h2 q h))
        cases l with
        | nil => simp [binary_tree.sorted_values] at hql
        | node lw ll lr =>
          obtain ⟨he1, he2⟩ := ihl (by simp) h3 hql
          rw [insert_lt_cons q w _ r hlt (by simp)]
          rw [he1]
          exact ⟨rfl, he2⟩
      · subst heq
        rw [insert_found]
        exact ⟨rfl, rfl⟩
      · have hqr : q ∈ r.sorted_values := by
          rcases hq2 with h | h | h
          · exact absurd hgt (not_lt_of_lt (h1 q h))
          · exact absurd (h ▸ hgt) (lt_irrefl w)
          · exact h
        cases r with
        | nil => simp [binary_tree.sorted_values] at hqr
        | node rw2 rl rr =>
          obtain ⟨he1, he2⟩ := ihr (by simp) h4 hqr
          rw [insert_gt_cons q w l _ hgt (by simp)]
          rw [he1]
          exact ⟨rfl, he2⟩

theorem C8_witness :
    ((binary_tree.node (some 2) (.node (some 1) .nil .nil) .nil)
        ≠ .nil ∧
      bst (.node (some 2) (.node (some 1) .nil .nil) .nil) = true ∧
      (1 : ℚ) ∈ (binary_tree.node (some 2)
        (.node (some 1) .nil .nil) .nil).sorted_values) ∧
    ((binary_tree.node (some 2)
        (.node (some 1) .nil .nil) .nil).insert (some 1)).1
      = .node (some 2) (.node (some 1) .nil .nil) .nil ∧
    (((binary_tree.node (some 2)
        (.node (some 1) .nil .nil) .nil).insert (some 1)).2).value
      = some 1 :=
  ⟨⟨by decide, by decide, by decide⟩,
   C8_reinsert_idempotent (.node (some 2) (.node (some 1) .nil .nil) .nil)
     1 (by decide) (by decide) (by decide)⟩

/-- C9: `gen_tree_free_deep` of src/c/src/tree.c frees exactly the
nodes of the whole subtree (every reachable node once, then the node
itself — the freed list is a permutation of the node enumeration,
ending with the root).  The variant of src/c/src/structures/tree.c
calls the shallow `gen_tree_free_children` instead: evaluated at the
three-node chain 0 → 1 → 2 it frees only the direct child and the
root, leaving the grandchild node live, contradicting its own
documentation ("free its child subtree"). -/
theorem C9_free_deep_releases_subtree :
    (∀ t : tree, (gen_tree_free_deep_frees t).Perm t.nodes) ∧
    (∀ t : tree,
      (gen_tree_free_deep_frees t).getLast? = t.nodes.head?) ∧
    structures_gen_tree_free_deep_frees
        (.node (some 0) [.node (some 1) [.node (some 2) []]])
      = [.node (some 1) [.node (some 2) []],
         .node (some 0) [.node (some 1) [.node (some 2) []]]] ∧
    (tree.node (some 2) [] : tree) ∈
        (tree.node (some 0) [.node (some 1) [.node (some 2) []]]).nodes ∧
    (tree.node (some 2) [] : tree) ∉
        structures_gen_tree_free_deep_frees
          (.node (some 0) [.node (some 1) [.node (some 2) []]]) := by
  refine ⟨free_deep_perm_nodes, ?_, by decide, by decide, by decide⟩
  intro t
  cases t with
  | nil => rfl
  | node v cs =>
    rw [nodes_node]
    show (free_children_list cs true ++ [tree.node v cs]).getLast? = _
    rw [List.getLast?_concat]
    rfl

/-- C10: `dfs` and `bfs` of the same root return permutations of one
another, and both are permutations of the reference enumeration of the
non-NULL nodes reachable from the root — same length, same nodes with
the same multiplicities, differing only in order. -/
theorem C10_dfs_bfs_same_nodes (v : Val) (cs : List tree) :
    ((tree.node v cs).dfs).Perm ((tree.node v cs).bfs) ∧
    ((tree.node v cs).dfs).Perm ((tree.node v cs).nodes) ∧
    ((tree.node v cs).bfs).Perm ((tree.node v cs).nodes) := by
  have hd := dfs_perm_nodes (.node v cs)
  have hb : ((tree.node v cs).bfs).Perm ((tree.node v cs).nodes) := by
    have h := bfs_loop_perm (gsize_list [.node v cs]) [.node v cs]
      le_rfl (by
        intro t ht
        simp at ht
        subst ht
        exact fun hh => tree.noConfusion hh)
    simpa [tree.bfs] using h
  exact ⟨hd.trans hb.symm, hd, hb⟩
